import Mathlib

/-!
Verification development for the BitCraftMap_With_Empire repository.

The definitions below are shallow embeddings of the Python sources:
  scripts/coords.py           — chunk conversion and watchtower coverage
  scripts/generator_core.py   — rate limiter, API client shape handling,
                                chunk-map aggregation, polygon classification,
                                color application from the persisted store
  scripts/generate_geojson.py — adjacency-graph construction (pairwise and
                                spatial-index regimes), degree-descending sort,
                                greedy palette constants

Machine floats of the source are modelled as exact rationals; Python dicts
keyed by hashable values are modelled as functions into Option, updated
pointwise; Python sets of owner keys are modelled as Finsets.
-/

/-- Pointwise update of a function, modelling a Python dict assignment
`f[a] = b` (every other key keeps its previous value). -/
def updFn {α β : Type} [DecidableEq α] (f : α → β) (a : α) (b : β) : α → β :=
  fun x => if x = a then b else f x

/-! ## scripts/coords.py -/

/-- From coords.py: `smallhex_to_chunk(small_x, small_y)` returns
`(small_x // 96, small_y // 96)`.  Python `//` is floor division,
which on integers is `Int.fdiv`. -/
def smallhex_to_chunk (small_x small_y : ℤ) : ℤ × ℤ :=
  (Int.fdiv small_x 96, Int.fdiv small_y 96)

/-- From coords.py: `chunk_bounds(chunk_x, chunk_y)` — the closed ring of the
four chunk corners. -/
def chunk_bounds (chunk_x chunk_y : ℤ) : List (ℤ × ℤ) :=
  [(chunk_x * 96, chunk_y * 96),
   ((chunk_x + 1) * 96, chunk_y * 96),
   ((chunk_x + 1) * 96, (chunk_y + 1) * 96),
   (chunk_x * 96, (chunk_y + 1) * 96),
   (chunk_x * 96, chunk_y * 96)]

/-- The offsets `range(-radius_chunks, radius_chunks + 1)` used by
`tower_covered_chunks`. -/
def offsetList (r : ℤ) : List ℤ :=
  (List.range (2 * r + 1).toNat).map (fun k => -r + (k : ℤ))

/-- From coords.py: `tower_covered_chunks(small_x, small_y, radius_chunks)` —
all chunks `(cx + dx, cy + dy)` for `dx, dy` in `-r..r`, where `(cx, cy)` is
the chunk of the tower, enumerated with `dx` as the outer loop. -/
def tower_covered_chunks (small_x small_y : ℤ) (radius_chunks : ℤ) : List (ℤ × ℤ) :=
  (offsetList radius_chunks).flatMap (fun dx =>
    (offsetList radius_chunks).map (fun dy =>
      ((smallhex_to_chunk small_x small_y).1 + dx,
       (smallhex_to_chunk small_x small_y).2 + dy)))

/-! ## scripts/generator_core.py — tower filtering and chunk-map aggregation -/

/-- A tower record as consumed by `process_empires_to_chunkmap.fetch_emp`:
the `active` flag (absent field modelled as `none`, defaulted to true by the
code), and the two coordinates `locationX` / `locationZ` (absent field
modelled as `none`; numeric payloads modelled as exact rationals). -/
structure Tower where
  active : Option Bool
  locationX : Option ℚ
  locationZ : Option ℚ
deriving DecidableEq

/-- The per-tower body of `fetch_emp` in `process_empires_to_chunkmap`
(generator_core.py lines 303-324): skip when inactive (default active),
skip when a coordinate is missing, skip when a coordinate is `<= 0` or
`> 23040`; otherwise truncate the coordinates to integers (`int`, equal to
the floor for these positive values) and return the 5x5 covered-chunk
block.  `none` means the tower is skipped (and does not count toward the
per-empire cap); `some cs` means it contributes the chunks `cs`. -/
def processTower (t : Tower) : Option (List (ℤ × ℤ)) :=
  if !(t.active.getD true) then none
  else
    match t.locationX, t.locationZ with
    | some x, some y =>
      if x ≤ 0 ∨ y ≤ 0 ∨ 23040 < x ∨ 23040 < y then none
      else some (tower_covered_chunks (Rat.floor x) (Rat.floor y) 2)
    | _, _ => none

/-- The accumulation loop of `fetch_emp`: walk the tower list, breaking once
`towers_handled` reaches the cap (`max_towers_per_empire`, `0` meaning
unlimited), collecting each contributing covered chunks of each contributing tower. -/
def fetch_emp_chunks (cap : Nat) : List Tower → Nat → List (ℤ × ℤ)
  | [], _ => []
  | t :: ts, handled =>
    if 0 < cap ∧ cap ≤ handled then []
    else
      match processTower t with
      | none => fetch_emp_chunks cap ts handled
      | some cs => cs ++ fetch_emp_chunks cap ts (handled + 1)

/-- An owner key: `(empire id, empire name)`. -/
abbrev OwnerKey : Type := ℤ × String

/-- The aggregation phase of `process_empires_to_chunkmap` (generator_core.py
lines 341-343): for every empire result, add the owner key to the owner set
of every covered chunk.  The chunkmap is the Python `defaultdict(set)`,
modelled as a total function defaulting to the empty set.  The source
deduplicates and sorts each local chunk list before insertion; this only
permutes idempotent `Finset.insert` operations, so the resulting map is
unchanged and the dedup/sort step is omitted here. -/
def process_empires_to_chunkmap (emps : List (ℤ × String × List Tower)) (cap : Nat) :
    (ℤ × ℤ) → Finset OwnerKey :=
  emps.foldl
    (fun m e =>
      (fetch_emp_chunks cap e.2.2 0).foldl
        (fun acc c => updFn acc c (insert (e.1, e.2.1) (acc c))) m)
    (fun _ => ∅)

/-! ## scripts/generator_core.py — RateLimiter -/

/-- The mutable state and configuration of the token-bucket `RateLimiter`
(generator_core.py lines 64-93; generate_geojson.py has the identical code).
Machine floats are modelled as rationals; `last` holds the monotonic clock
value captured at the previous accounting point. -/
structure RateLimiter where
  rate_per_min : ℚ
  rate_per_sec : ℚ
  capacity : ℚ
  tokens : ℚ
  last : ℚ
deriving DecidableEq

/-- The `RateLimiter.__init__` body: clamp the rate to at least 1 per minute,
derive the per-second rate, cap the default capacity at
`min(rate_per_min, 10)`, and start with zero tokens at clock value `now`. -/
def RateLimiter.init (rate_per_min : ℤ) (capacity : Option ℚ) (now : ℚ) : RateLimiter :=
  let r : ℤ := max 1 rate_per_min
  ⟨(r : ℚ), (r : ℚ) / 60, capacity.getD (min (r : ℚ) 10), 0, now⟩

/-- The observable outcome of one `acquire` call: either a grant (the tokens
were deducted inside the lock) or a sleep of the computed duration after
which the call simply returns. -/
inductive AcquireOutcome where
  | granted
  | sleepFor (wait : ℚ)
deriving DecidableEq

/-- The `RateLimiter.acquire` body as a state transition at clock value
`now`: refill `elapsed * rate_per_sec` tokens capped at `capacity`; if the
refilled bucket covers the request, deduct and record `now` in `last`;
otherwise compute the wait, leave `last` untouched, keep the refilled token
count, release the lock and sleep — returning without any deduction and
without re-checking availability. -/
def RateLimiter.acquire (s : RateLimiter) (now : ℚ) (tokens : ℚ) :
    RateLimiter × AcquireOutcome :=
  let refilled : ℚ := min s.capacity (s.tokens + (now - s.last) * s.rate_per_sec)
  if tokens ≤ refilled then
    (⟨s.rate_per_min, s.rate_per_sec, s.capacity, refilled - tokens, now⟩, .granted)
  else
    (⟨s.rate_per_min, s.rate_per_sec, s.capacity, refilled, s.last⟩,
     .sleepFor ((tokens - refilled) / s.rate_per_sec))

/-! ## scripts/generator_core.py — apply_colors_from_store -/

/-- A persisted color-store entry: `{"name": ..., "color": ...}` where either
field may be `None`. -/
structure ColorEntry where
  name : Option String
  color : Option String
deriving DecidableEq

/-- From generator_core.py: `DEFAULT_EMPIRE_COLOR`. -/
def DEFAULT_EMPIRE_COLOR : String := "#FF5500ff"

/-- The running state of `apply_colors_from_store`: the `assigned_color`
dict, the in-memory store dict keyed by integer empire id, and the
`store_updated` flag. -/
structure ColorState where
  assigned : OwnerKey → Option String
  store : ℤ → Option ColorEntry
  updated : Bool

/-- One iteration of the `for node_key in nodes` loop of
`apply_colors_from_store` (generator_core.py lines 428-458): reuse a
non-empty persisted color verbatim (refreshing the stored name if it
changed); otherwise assign `DEFAULT_EMPIRE_COLOR` and record it in the
store, setting the `store_updated` flag.  Python truthiness of the color
makes the empty string count as absent. -/
def apply_colors_step (s : ColorState) (node : OwnerKey) : ColorState :=
  match s.store node.1 with
  | some p =>
    match p.color with
    | some c =>
      if c = "" then
        ⟨updFn s.assigned node (some DEFAULT_EMPIRE_COLOR),
         updFn s.store node.1 (some ⟨some node.2, some DEFAULT_EMPIRE_COLOR⟩), true⟩
      else if p.name = some node.2 then
        ⟨updFn s.assigned node (some c), s.store, s.updated⟩
      else
        ⟨updFn s.assigned node (some c),
         updFn s.store node.1 (some ⟨some node.2, some c⟩), true⟩
    | none =>
      ⟨updFn s.assigned node (some DEFAULT_EMPIRE_COLOR),
       updFn s.store node.1 (some ⟨some node.2, some DEFAULT_EMPIRE_COLOR⟩), true⟩
  | none =>
    ⟨updFn s.assigned node (some DEFAULT_EMPIRE_COLOR),
     updFn s.store node.1 (some ⟨some node.2, some DEFAULT_EMPIRE_COLOR⟩), true⟩

/-- The loop of `apply_colors_from_store` over the node list. -/
def apply_colors_loop : List OwnerKey → ColorState → ColorState
  | [], s => s
  | n :: rest, s => apply_colors_loop rest (apply_colors_step s n)

/-- From generator_core.py lines 408-467: `apply_colors_from_store`, starting
from a loaded store (load failure yields the empty store at the call site),
an empty `assigned_color` dict and a cleared `store_updated` flag.  The
final save happens iff a path was given and the returned `updated` flag is
true. -/
def apply_colors_from_store (store0 : ℤ → Option ColorEntry) (nodes : List OwnerKey) :
    ColorState :=
  apply_colors_loop nodes ⟨fun _ => none, store0, false⟩

/-- The empty persisted store. -/
def emptyStore : ℤ → Option ColorEntry := fun _ => none

/-- Python truthiness test `if color_val:` on a store slot: true when no
entry exists, when the entry has no color, or when the color is the empty
string. -/
def colorFalsy : Option ColorEntry → Bool
  | none => true
  | some p =>
    match p.color with
    | none => true
    | some c => c == ""

/-- The color recorded in a store slot, when one is present. -/
def storeColor (store : ℤ → Option ColorEntry) (eid : ℤ) : Option String :=
  (store eid).bind ColorEntry.color

/-! ## scripts/generate_geojson.py — palette and greedy-coloring order -/

/-- The fixed 6-entry palette of generate_geojson.py (lines 156-165 and
340-347). -/
def palette : List String :=
  ["#FF5500ff", "#AAFF00ff", "#00FFAAff", "#0088FFff", "#6600FFff", "#FF0099ff"]

/-- From generate_geojson.py: `color_for_empire(empire_id)` =
`palette[empire_id % len(palette)]` (Python `%` on a positive modulus is
`Int.emod`, always nonnegative). -/
def color_for_empire (empire_id : ℤ) : String :=
  palette.getD (empire_id % 6).toNat ""

/-- Stable insertion of `x` into a list sorted by descending key: `x` is
placed before the first element whose key does not exceed its own, so
elements with equal keys keep their relative order. -/
def insertDescBy (k : OwnerKey → ℕ) (x : OwnerKey) : List OwnerKey → List OwnerKey
  | [] => [x]
  | y :: ys => if k y ≤ k x then x :: y :: ys else y :: insertDescBy k x ys

/-- The embedding of generate_geojson.py line 425,
`sorted(nodes, key=lambda n: len(adjacency[n]), reverse=True)`: Python
`sorted` is a stable sort, here realised as a stable insertion sort by
descending key.  Ties keep the order of the input list. -/
def sortByKeyDesc (k : OwnerKey → ℕ) : List OwnerKey → List OwnerKey
  | [] => []
  | x :: xs => insertDescBy k x (sortByKeyDesc k xs)

/-! ## scripts/generate_geojson.py — adjacency graphs (lines 349-417) -/

/-- Add a symmetric edge: `adjacency[a].add(b); adjacency[b].add(a)`. -/
def addEdge (adj : OwnerKey → Finset OwnerKey) (a b : OwnerKey) :
    OwnerKey → Finset OwnerKey :=
  fun n => if n = a then insert b (adj n) else if n = b then insert a (adj n) else adj n

/-- The index pairs visited by the pairwise double loop
`for i, a in enumerate(nodes): for b in nodes[i+1:]`, in iteration order. -/
def pairIndexList (n : ℕ) : List (ℕ × ℕ) :=
  (List.range n).flatMap (fun i =>
    ((List.range n).filter (fun j => i < j)).map (fun j => (i, j)))

/-- The index pairs visited by the spatial-index loop
`for i, g in enumerate(geom_list): for c in tree.query(g)`, with each
candidate already resolved to its index `j` (both source lookup paths —
integer candidates and geometry handles resolved through the id map —
end in an index into `geom_list`). -/
def candIndexList (n : ℕ) (query : ℕ → List ℕ) : List (ℕ × ℕ) :=
  (List.range n).flatMap (fun i => (query i).map (fun j => (i, j)))

/-- A default owner key used only for (guarded) positional lookups. -/
def dfltOwner : OwnerKey := (0, "")

/-- Fold a list of candidate index pairs into an adjacency map: each pair
passing the test adds a symmetric edge between the nodes at those
positions.  The initial map `{n: set() for n in nodes}` is the constant
empty set. -/
def edgeFold (nodes : List OwnerKey) (cond : ℕ → ℕ → Bool) (ps : List (ℕ × ℕ)) :
    OwnerKey → Finset OwnerKey :=
  ps.foldl
    (fun adj p =>
      if cond p.1 p.2 then addEdge adj (nodes.getD p.1 dfltOwner) (nodes.getD p.2 dfltOwner)
      else adj)
    (fun _ => ∅)

/-- The pairwise regime (generate_geojson.py lines 402-414): for every pair
`i < j`, add a symmetric edge when the geometric intersects-or-touches test
`pred` holds; a geometry failure on a pair is swallowed as no-edge, so
`pred` is total. -/
def pairwise_adjacency {β : Type} (nodes : List OwnerKey) (geom : OwnerKey → β)
    (pred : β → β → Bool) : OwnerKey → Finset OwnerKey :=
  edgeFold nodes
    (fun i j => pred (geom (nodes.getD i dfltOwner)) (geom (nodes.getD j dfltOwner)))
    (pairIndexList nodes.length)

/-- The spatial-index regime (generate_geojson.py lines 353-398): for every
node `i` and every candidate `j` returned by the index query, skip `j = i`,
skip unresolvable candidates, and add a symmetric edge when the same
geometric test holds against the candidate geometry. -/
def strtree_adjacency {β : Type} (nodes : List OwnerKey) (geom : OwnerKey → β)
    (pred : β → β → Bool) (query : ℕ → List ℕ) : OwnerKey → Finset OwnerKey :=
  edgeFold nodes
    (fun i j =>
      (!(j == i)) && decide (j < nodes.length) &&
        pred (geom (nodes.getD i dfltOwner)) (geom (nodes.getD j dfltOwner)))
    (candIndexList nodes.length query)

/-! ## scripts/generator_core.py — build_owner_and_contested_polys -/

/-- A chunk polygon: the coordinate ring handed to the geometry library. -/
abbrev ChunkPoly : Type := List (ℤ × ℤ)

/-- From generator_core.py lines 354-381: walk the chunkmap items, build each
bounding ring of each chunk, and classify it — exactly one owner appends it to
the polygon list of that owner (the `sorted(owners)[0]` of a singleton set is
its unique element); more than one owner appends it to the contested list;
zero owners skip it.  Each Python owner set is modelled as the
duplicate-free list of its elements, so `len(owners)` is the list length.
The source iterates the items sorted by chunk key; sorting only permutes
the per-list append order, and the input list here stands for that
iteration sequence. -/
def build_owner_and_contested_polys :
    List ((ℤ × ℤ) × List OwnerKey) → ((OwnerKey → List ChunkPoly) × List ChunkPoly)
  | [] => (fun _ => [], [])
  | (c, owners) :: rest =>
    let r := build_owner_and_contested_polys rest
    match owners with
    | [] => r
    | [o] => (updFn r.1 o (chunk_bounds c.1 c.2 :: r.1 o), r.2)
    | _ :: _ :: _ => (r.1, chunk_bounds c.1 c.2 :: r.2)

/-! ## scripts/generator_core.py — BitJitaClient payload handling -/

/-- A JSON value as returned by `response.json()`. -/
inductive Jv where
  | jnull
  | jbool (b : Bool)
  | jnum (q : ℚ)
  | jstr (s : String)
  | jarr (xs : List Jv)
  | jobj (fields : List (String × Jv))

/-- Python `dict.get(k)`: the value stored under the first matching key. -/
def jGet (fields : List (String × Jv)) (k : String) : Option Jv :=
  (fields.find? (fun f => f.1 == k)).map Prod.snd

/-- Python truthiness of a JSON value. -/
def pyTruthy : Jv → Bool
  | .jnull => false
  | .jbool b => b
  | .jnum q => !(q == 0)
  | .jstr s => !(s == "")
  | .jarr xs => !xs.isEmpty
  | .jobj fs => !fs.isEmpty

/-- Python `v or fallback`. -/
def jOrElse (v fallback : Jv) : Jv := if pyTruthy v then v else fallback

/-- The guard `isinstance(data, dict) and data.get(k) is not None`, returning
the (non-None) value when it holds. -/
def jGetNonNull (d : Jv) (k : String) : Option Jv :=
  match d with
  | .jobj fs =>
    match jGet fs k with
    | some .jnull => none
    | some v => some v
    | none => none
  | _ => none

/-- The outcome of `_get_with_retries` followed by `response.json()`: either
a parsed payload, or any raised exception (transport failure after retry
exhaustion, a final `raise_for_status`, a JSON decode error, ...). -/
abbrev ApiResult : Type := Except String Jv

/-- From generator_core.py lines 143-151: `fetch_empires` — unwrap the
`empires` field of a dict payload (defaulting to `[]`), and return `[]`
when anything was raised (including the attribute error on a non-dict
payload, caught by the blanket handler). -/
def fetch_empires (r : ApiResult) : Jv :=
  match r with
  | .error _ => .jarr []
  | .ok d =>
    match d with
    | .jobj fs => (jGet fs "empires").getD (.jarr [])
    | _ => .jarr []

/-- From generator_core.py lines 153-161: `fetch_towers` — the raw parsed
payload on success, `[]` on any raised exception. -/
def fetch_towers (r : ApiResult) : Jv :=
  match r with
  | .error _ => .jarr []
  | .ok d => d

/-- From generator_core.py lines 163-181: `fetch_empire` — unwrap an optional
`empire` envelope (`or {}` on a falsy inner value), accept a bare dict,
return `{}` otherwise and on any raised exception. -/
def fetch_empire (r : ApiResult) : Jv :=
  match r with
  | .error _ => .jobj []
  | .ok d =>
    match jGetNonNull d "empire" with
    | some v => jOrElse v (.jobj [])
    | none =>
      match d with
      | .jobj fs => .jobj fs
      | _ => .jobj []

/-- From generator_core.py lines 183-201: `fetch_claim` — unwrap an optional
`claim` envelope, accept a bare claim dict recognised by its `entityId`
field, return `{}` otherwise and on any raised exception. -/
def fetch_claim (r : ApiResult) : Jv :=
  match r with
  | .error _ => .jobj []
  | .ok d =>
    match jGetNonNull d "claim" with
    | some v => jOrElse v (.jobj [])
    | none =>
      match jGetNonNull d "entityId" with
      | some _ => d
      | none => .jobj []

/-- From generator_core.py lines 203-220: `fetch_claims_page` — unwrap an
optional `claims` envelope, accept a bare list, return `[]` otherwise and
on any raised exception. -/
def fetch_claims_page (r : ApiResult) : Jv :=
  match r with
  | .error _ => .jarr []
  | .ok d =>
    match jGetNonNull d "claims" with
    | some v => jOrElse v (.jarr [])
    | none =>
      match d with
      | .jarr xs => .jarr xs
      | _ => .jarr []

/-! ## Helper lemmas -/

theorem offsetList_two : offsetList 2 = [-2, -1, 0, 1, 2] := rfl

theorem mem_offsetList_two (dx : ℤ) : dx ∈ offsetList 2 ↔ -2 ≤ dx ∧ dx ≤ 2 := by
  rw [offsetList_two]
  simp only [List.mem_cons, List.not_mem_nil, or_false]
  omega

theorem mem_tower_covered_chunks (x y : ℤ) (c : ℤ × ℤ) :
    c ∈ tower_covered_chunks x y 2 ↔
      ∃ dx dy : ℤ, -2 ≤ dx ∧ dx ≤ 2 ∧ -2 ≤ dy ∧ dy ≤ 2 ∧
        c = (Int.fdiv x 96 + dx, Int.fdiv y 96 + dy) := by
  simp only [tower_covered_chunks, smallhex_to_chunk, List.mem_flatMap, List.mem_map,
    mem_offsetList_two]
  constructor
  · rintro ⟨dx, ⟨h1, h2⟩, dy, ⟨h3, h4⟩, rfl⟩
    exact ⟨dx, dy, h1, h2, h3, h4, rfl⟩
  · rintro ⟨dx, dy, h1, h2, h3, h4, rfl⟩
    exact ⟨dx, ⟨h1, h2⟩, dy, ⟨h3, h4⟩, rfl⟩

theorem length_tower_covered_chunks (x y : ℤ) :
    (tower_covered_chunks x y 2).length = 25 := rfl

theorem processTower_eq_some_iff (t : Tower) (cs : List (ℤ × ℤ)) :
    processTower t = some cs ↔
      t.active.getD true = true ∧
      ∃ x y : ℚ, t.locationX = some x ∧ t.locationZ = some y ∧
        0 < x ∧ x ≤ 23040 ∧ 0 < y ∧ y ≤ 23040 ∧
        cs = tower_covered_chunks (Rat.floor x) (Rat.floor y) 2 := by
  obtain ⟨a, lx, lz⟩ := t
  cases hA : a.getD true with
  | false => simp [processTower, hA]
  | true =>
    rcases lx with _ | x
    · simp [processTower, hA]
    · rcases lz with _ | y
      · simp [processTower, hA]
      · by_cases hB : x ≤ 0 ∨ y ≤ 0 ∨ 23040 < x ∨ 23040 < y
        · have hL : processTower ⟨a, some x, some y⟩ = none := by
            simp [processTower, hA, hB]
          rw [hL]
          constructor
          · intro h; exact Option.noConfusion h
          · rintro ⟨-, x0, y0, hx0, hy0, p1, p2, p3, p4, -⟩
            injection hx0 with hx0
            injection hy0 with hy0
            subst hx0; subst hy0
            rcases hB with h | h | h | h <;> linarith
        · have hL : processTower ⟨a, some x, some y⟩ =
              some (tower_covered_chunks (Rat.floor x) (Rat.floor y) 2) := by
            simp [processTower, hA, hB]
          rw [hL]
          push_neg at hB
          obtain ⟨b1, b2, b3, b4⟩ := hB
          constructor
          · intro h
            exact ⟨rfl, x, y, rfl, rfl, b1, b3, b2, b4, (Option.some.inj h).symm⟩
          · rintro ⟨-, x0, y0, hx0, hy0, -, -, -, -, hcs⟩
            injection hx0 with hx0
            injection hy0 with hy0
            subst hx0; subst hy0
            rw [hcs]

/-! ## Claim C3 — RateLimiter.acquire -/

/-- C3 (code bug evidence): on a freshly initialised limiter
(`rate_per_min = 250`, zero tokens) a single `acquire(1.0)` call takes the
insufficient-tokens path: it computes a `6/25`-second sleep and returns with
the limiter state completely unchanged — in particular no tokens are
deducted, and `last` is not advanced, contradicting the claim that upon
return exactly `cost` tokens have been deducted after becoming available. -/
theorem C3_acquire_returns_without_deduction :
    RateLimiter.acquire (RateLimiter.init 250 none 0) 0 1 =
      (RateLimiter.init 250 none 0, AcquireOutcome.sleepFor (6 / 25)) ∧
    (RateLimiter.init 250 none 0).tokens = 0 := by
  refine ⟨?_, rfl⟩
  simp only [RateLimiter.acquire, RateLimiter.init, Option.getD]
  norm_num

/-! ## Claim C9 — API operations fail soft -/

/-- C9 (confirmed): each of the five exposed operations is a total function
of the request outcome (no exception can propagate past the blanket
handler), and on any raised error — retry exhaustion included — it returns
the empty list or empty dict. -/
theorem C9_api_operations_fail_soft : ∀ e : String,
    fetch_empires (.error e) = .jarr [] ∧
    fetch_towers (.error e) = .jarr [] ∧
    fetch_empire (.error e) = .jobj [] ∧
    fetch_claim (.error e) = .jobj [] ∧
    fetch_claims_page (.error e) = .jarr [] :=
  fun _ => ⟨rfl, rfl, rfl, rfl, rfl⟩

/-! ## Claim C7 — tower filter and 5x5 coverage -/

/-- C7 (confirmed): a tower contributes to the chunk map iff it is active
(defaulting to true) and both coordinates are present and inside
`(0, 23040]`; and a contributing tower with truncated coordinates
`(x, y)` contributes exactly the 25 chunks at offsets `-2..2` around
`(x // 96, y // 96)`. -/
theorem C7_tower_filter_and_coverage (t : Tower) :
    ((processTower t).isSome = true ↔
      (t.active.getD true = true ∧
        ∃ x y : ℚ, t.locationX = some x ∧ t.locationZ = some y ∧
          0 < x ∧ x ≤ 23040 ∧ 0 < y ∧ y ≤ 23040)) ∧
    (∀ (x y : ℚ) (cs : List (ℤ × ℤ)),
      t.locationX = some x → t.locationZ = some y → processTower t = some cs →
        cs.length = 25 ∧
        ∀ c : ℤ × ℤ, c ∈ cs ↔
          ∃ dx dy : ℤ, -2 ≤ dx ∧ dx ≤ 2 ∧ -2 ≤ dy ∧ dy ≤ 2 ∧
            c = (Int.fdiv (Rat.floor x) 96 + dx, Int.fdiv (Rat.floor y) 96 + dy)) := by
  constructor
  · constructor
    · intro h
      rw [Option.isSome_iff_exists] at h
      obtain ⟨cs, h⟩ := h
      obtain ⟨h1, x, y, h2, h3, h4, h5, h6, h7, -⟩ := (processTower_eq_some_iff t cs).mp h
      exact ⟨h1, x, y, h2, h3, h4, h5, h6, h7⟩
    · rintro ⟨h1, x, y, h2, h3, h4, h5, h6, h7⟩
      rw [Option.isSome_iff_exists]
      exact ⟨_, (processTower_eq_some_iff t _).mpr ⟨h1, x, y, h2, h3, h4, h5, h6, h7, rfl⟩⟩
  · intro x y cs hx hy h
    obtain ⟨-, x0, y0, hx0, hy0, -, -, -, -, hcs⟩ := (processTower_eq_some_iff t cs).mp h
    rw [hx] at hx0
    rw [hy] at hy0
    injection hx0 with hx0
    injection hy0 with hy0
    subst hx0; subst hy0; subst hcs
    exact ⟨length_tower_covered_chunks _ _, fun c => mem_tower_covered_chunks _ _ c⟩

/-- Witness for C7: the concrete tower at `(50, 50)` with `active: true`
passes the filter, and its covered block has 25 chunks. -/
theorem C7_witness :
    (processTower ⟨some true, some 50, some 50⟩).isSome = true ∧
    (tower_covered_chunks (Rat.floor 50) (Rat.floor 50) 2).length = 25 := by
  constructor
  · exact (C7_tower_filter_and_coverage ⟨some true, some 50, some 50⟩).1.mpr
      ⟨rfl, 50, 50, rfl, rfl, by norm_num, by norm_num, by norm_num, by norm_num⟩
  · exact ((C7_tower_filter_and_coverage ⟨some true, some 50, some 50⟩).2 50 50
      (tower_covered_chunks (Rat.floor 50) (Rat.floor 50) 2) rfl rfl (by decide)).1

/-! ## Claim C10 — no clamping of off-map chunks -/

/-- C10 (confirmed): chunk coordinates are never clamped — any contributing
tower whose truncated x-coordinate is below 192 claims chunks with a
negative x-coordinate; concretely, a tower at `(50, 50)` claims exactly
the chunks `(-2, -2)` through `(2, 2)`, and the off-map key `(-2, -2)` is
materialized in the chunk-ownership map like any other. -/
theorem C10_no_clamping_negative_chunks :
    (∀ (t : Tower) (x : ℚ) (cs : List (ℤ × ℤ)),
        processTower t = some cs → t.locationX = some x → Rat.floor x < 192 →
          ∃ c ∈ cs, c.1 < 0) ∧
    tower_covered_chunks 50 50 2 =
      [(-2, -2), (-2, -1), (-2, 0), (-2, 1), (-2, 2),
       (-1, -2), (-1, -1), (-1, 0), (-1, 1), (-1, 2),
       (0, -2), (0, -1), (0, 0), (0, 1), (0, 2),
       (1, -2), (1, -1), (1, 0), (1, 1), (1, 2),
       (2, -2), (2, -1), (2, 0), (2, 1), (2, 2)] ∧
    process_empires_to_chunkmap [(1, "a", [⟨some true, some 50, some 50⟩])] 0 (-2, -2) =
      {(1, "a")} := by
  refine ⟨?_, by decide, by decide⟩
  intro t x cs h hx hfl
  obtain ⟨-, x0, y0, hx0, hy0, hpx, -, -, -, hcs⟩ := (processTower_eq_some_iff t cs).mp h
  rw [hx] at hx0
  injection hx0 with hx0
  subst hx0; subst hcs
  have h0 : (0 : ℤ) ≤ Rat.floor x := by
    rw [Rat.le_floor]
    push_cast
    linarith
  have hdiv : Int.fdiv (Rat.floor x) 96 ≤ 1 := by
    rw [Int.fdiv_eq_ediv _ (by norm_num)]
    omega
  refine ⟨(Int.fdiv (Rat.floor x) 96 + (-2), Int.fdiv (Rat.floor y0) 96 + (-2)), ?_, ?_⟩
  · rw [mem_tower_covered_chunks]
    exact ⟨-2, -2, by norm_num, by norm_num, by norm_num, by norm_num, rfl⟩
  · omega

/-- Witness for C10: a concrete tower at `(50, 100)` contributes, its
truncated x-coordinate 50 is below 192, and its block indeed contains a
chunk with negative x-coordinate. -/
theorem C10_witness :
    processTower ⟨none, some 50, some 100⟩ =
      some (tower_covered_chunks (Rat.floor (50 : ℚ)) (Rat.floor (100 : ℚ)) 2) ∧
    ∃ c ∈ tower_covered_chunks (Rat.floor (50 : ℚ)) (Rat.floor (100 : ℚ)) 2,
      c.1 < 0 := by
  constructor
  · decide
  · exact C10_no_clamping_negative_chunks.1 ⟨none, some 50, some 100⟩ 50
      (tower_covered_chunks (Rat.floor (50 : ℚ)) (Rat.floor (100 : ℚ)) 2)
      (by decide) rfl (by decide)

/-! ## Color-store lemmas -/

theorem updFn_self {α β : Type} [DecidableEq α] (f : α → β) (a : α) (b : β) :
    updFn f a b a = b := by simp [updFn]

theorem updFn_ne {α β : Type} [DecidableEq α] (f : α → β) (a : α) (b : β) (x : α)
    (h : x ≠ a) : updFn f a b x = f x := by simp [updFn, h]

theorem apply_colors_step_falsy (s : ColorState) (n : OwnerKey)
    (hf : colorFalsy (s.store n.1) = true) :
    apply_colors_step s n =
      ⟨updFn s.assigned n (some DEFAULT_EMPIRE_COLOR),
       updFn s.store n.1 (some ⟨some n.2, some DEFAULT_EMPIRE_COLOR⟩), true⟩ := by
  rcases hs : s.store n.1 with _ | p
  · simp [apply_colors_step, hs]
  · rcases hc : p.color with _ | c
    · simp [apply_colors_step, hs, hc]
    · have hcE : c = "" := by
        rw [hs] at hf
        simp only [colorFalsy, hc] at hf
        exact eq_of_beq hf
      subst hcE
      simp [apply_colors_step, hs, hc]

theorem apply_colors_step_truthy_eq (s : ColorState) (n : OwnerKey) (p : ColorEntry)
    (c : String) (hs : s.store n.1 = some p) (hc : p.color = some c) (hne : c ≠ "")
    (hn : p.name = some n.2) :
    apply_colors_step s n = ⟨updFn s.assigned n (some c), s.store, s.updated⟩ := by
  simp [apply_colors_step, hs, hc, hne, hn]

theorem apply_colors_step_truthy_ne (s : ColorState) (n : OwnerKey) (p : ColorEntry)
    (c : String) (hs : s.store n.1 = some p) (hc : p.color = some c) (hne : c ≠ "")
    (hn : p.name ≠ some n.2) :
    apply_colors_step s n =
      ⟨updFn s.assigned n (some c), updFn s.store n.1 (some ⟨some n.2, some c⟩), true⟩ := by
  simp [apply_colors_step, hs, hc, hne, hn]

theorem apply_colors_step_store_other (s : ColorState) (n : OwnerKey) (eid : ℤ)
    (h : n.1 ≠ eid) : (apply_colors_step s n).store eid = s.store eid := by
  have hupd : ∀ v, updFn s.store n.1 v eid = s.store eid :=
    fun v => updFn_ne s.store n.1 v eid (Ne.symm h)
  rcases hs : s.store n.1 with _ | p
  · simp [apply_colors_step, hs, hupd]
  · rcases hc : p.color with _ | c
    · simp [apply_colors_step, hs, hc, hupd]
    · by_cases hce : c = ""
      · simp [apply_colors_step, hs, hc, hce, hupd]
      · by_cases hn : p.name = some n.2
        · simp [apply_colors_step, hs, hc, hce, hn]
        · simp [apply_colors_step, hs, hc, hce, hn, hupd]

theorem apply_colors_step_assigned_other (s : ColorState) (n n0 : OwnerKey)
    (h : n0 ≠ n) : (apply_colors_step s n).assigned n0 = s.assigned n0 := by
  have hupd : ∀ v, updFn s.assigned n v n0 = s.assigned n0 :=
    fun v => updFn_ne s.assigned n v n0 h
  rcases hs : s.store n.1 with _ | p
  · simp [apply_colors_step, hs, hupd]
  · rcases hc : p.color with _ | c
    · simp [apply_colors_step, hs, hc, hupd]
    · by_cases hce : c = ""
      · simp [apply_colors_step, hs, hc, hce, hupd]
      · by_cases hn : p.name = some n.2
        · simp [apply_colors_step, hs, hc, hce, hn, hupd]
        · simp [apply_colors_step, hs, hc, hce, hn, hupd]

theorem apply_colors_step_updated_mono (s : ColorState) (n : OwnerKey)
    (h : s.updated = true) : (apply_colors_step s n).updated = true := by
  rcases hs : s.store n.1 with _ | p
  · simp [apply_colors_step, hs]
  · rcases hc : p.color with _ | c
    · simp [apply_colors_step, hs, hc]
    · by_cases hce : c = ""
      · simp [apply_colors_step, hs, hc, hce]
      · by_cases hn : p.name = some n.2
        · simp [apply_colors_step, hs, hc, hce, hn, h]
        · simp [apply_colors_step, hs, hc, hce, hn]

theorem loop_updated_mono (l : List OwnerKey) (s : ColorState) (h : s.updated = true) :
    (apply_colors_loop l s).updated = true := by
  induction l generalizing s with
  | nil => exact h
  | cons n rest ih => exact ih _ (apply_colors_step_updated_mono s n h)

theorem apply_colors_loop_cons (n : OwnerKey) (rest : List OwnerKey) (s : ColorState) :
    apply_colors_loop (n :: rest) s = apply_colors_loop rest (apply_colors_step s n) := rfl

theorem loop_truthy_invariant (l : List OwnerKey) (s : ColorState) (eid : ℤ) (c : String)
    (hne : c ≠ "") (hstore : ∃ nm, s.store eid = some ⟨nm, some c⟩) :
    (∃ nm, (apply_colors_loop l s).store eid = some ⟨nm, some c⟩) ∧
    (∀ n0 : OwnerKey, n0.1 = eid → s.assigned n0 = some c →
        (apply_colors_loop l s).assigned n0 = some c) ∧
    (∀ n0 ∈ l, n0.1 = eid → (apply_colors_loop l s).assigned n0 = some c) := by
  induction l generalizing s with
  | nil =>
    exact ⟨hstore, fun n0 _ ha => ha, fun n0 h => absurd h (List.not_mem_nil n0)⟩
  | cons n rest ih =>
    obtain ⟨nm, hnm⟩ := hstore
    rw [apply_colors_loop_cons]
    by_cases hid : n.1 = eid
    · have hsn : s.store n.1 = some ⟨nm, some c⟩ := by rw [hid]; exact hnm
      by_cases hname : nm = some n.2
      · have hstep := apply_colors_step_truthy_eq s n ⟨nm, some c⟩ c hsn rfl hne
          (by simpa using hname)
        rw [hstep]
        have ihh := ih ⟨updFn s.assigned n (some c), s.store, s.updated⟩ ⟨nm, hnm⟩
        refine ⟨ihh.1, ?_, ?_⟩
        · intro n0 h0 ha
          apply ihh.2.1 n0 h0
          show updFn s.assigned n (some c) n0 = some c
          by_cases hn0 : n0 = n
          · subst hn0; exact updFn_self s.assigned n0 (some c)
          · rw [updFn_ne s.assigned n (some c) n0 hn0]; exact ha
        · intro n0 hmem h0
          rcases List.mem_cons.mp hmem with rfl | hm
          · exact ihh.2.1 n0 h0 (updFn_self s.assigned n0 (some c))
          · exact ihh.2.2 n0 hm h0
      · have hstep := apply_colors_step_truthy_ne s n ⟨nm, some c⟩ c hsn rfl hne
          (by simpa using hname)
        rw [hstep]
        have ihh := ih ⟨updFn s.assigned n (some c),
            updFn s.store n.1 (some ⟨some n.2, some c⟩), true⟩
          ⟨some n.2, by rw [← hid]; exact updFn_self s.store n.1 _⟩
        refine ⟨ihh.1, ?_, ?_⟩
        · intro n0 h0 ha
          apply ihh.2.1 n0 h0
          show updFn s.assigned n (some c) n0 = some c
          by_cases hn0 : n0 = n
          · subst hn0; exact updFn_self s.assigned n0 (some c)
          · rw [updFn_ne s.assigned n (some c) n0 hn0]; exact ha
        · intro n0 hmem h0
          rcases List.mem_cons.mp hmem with rfl | hm
          · exact ihh.2.1 n0 h0 (updFn_self s.assigned n0 (some c))
          · exact ihh.2.2 n0 hm h0
    · have hso := apply_colors_step_store_other s n eid hid
      have ihh := ih (apply_colors_step s n) ⟨nm, by rw [hso]; exact hnm⟩
      refine ⟨ihh.1, ?_, ?_⟩
      · intro n0 h0 ha
        apply ihh.2.1 n0 h0
        rw [apply_colors_step_assigned_other s n n0 (by rintro rfl; exact hid h0)]
        exact ha
      · intro n0 hmem h0
        rcases List.mem_cons.mp hmem with rfl | hm
        · exact absurd h0 hid
        · exact ihh.2.2 n0 hm h0

theorem loop_entry_frozen (l : List OwnerKey) (s : ColorState) (eid : ℤ) (nm : String)
    (c : String) (hne : c ≠ "") (hstore : s.store eid = some ⟨some nm, some c⟩)
    (hl : ∀ m ∈ l, m.1 = eid → m.2 = nm) :
    (apply_colors_loop l s).store eid = some ⟨some nm, some c⟩ := by
  induction l generalizing s with
  | nil => exact hstore
  | cons n rest ih =>
    rw [apply_colors_loop_cons]
    by_cases hid : n.1 = eid
    · have hn2 : n.2 = nm := hl n (List.mem_cons_self n rest) hid
      have hstep := apply_colors_step_truthy_eq s n ⟨some nm, some c⟩ c
        (by rw [hid]; exact hstore) rfl hne (by rw [hn2])
      rw [hstep]
      exact ih ⟨updFn s.assigned n (some c), s.store, s.updated⟩ hstore
        (fun m hm => hl m (List.mem_cons_of_mem n hm))
    · have hso := apply_colors_step_store_other s n eid hid
      exact ih (apply_colors_step s n) (by rw [hso]; exact hstore)
        (fun m hm => hl m (List.mem_cons_of_mem n hm))

theorem loop_post_store (l : List OwnerKey) (s : ColorState)
    (hH : ∀ a b : OwnerKey, a ∈ l → b ∈ l → a.1 = b.1 → a.2 = b.2) :
    ∀ n ∈ l, ∃ c, c ≠ "" ∧ (apply_colors_loop l s).store n.1 = some ⟨some n.2, some c⟩ := by
  induction l generalizing s with
  | nil => intro n h; exact absurd h (List.not_mem_nil n)
  | cons m rest ih =>
    intro n hn
    have hfrozen : ∀ (c : String), c ≠ "" →
        (apply_colors_step s m).store m.1 = some ⟨some m.2, some c⟩ →
        (apply_colors_loop rest (apply_colors_step s m)).store m.1 =
          some ⟨some m.2, some c⟩ := by
      intro c hcne hst
      exact loop_entry_frozen rest (apply_colors_step s m) m.1 m.2 c hcne hst
        (fun a ha h1 =>
          hH a m (List.mem_cons_of_mem m ha) (List.mem_cons_self m rest) h1)
    rcases List.mem_cons.mp hn with rfl | hmem
    · rw [apply_colors_loop_cons]
      by_cases hf : colorFalsy (s.store n.1) = true
      · have hstep := apply_colors_step_falsy s n hf
        refine ⟨DEFAULT_EMPIRE_COLOR, by decide, ?_⟩
        apply hfrozen DEFAULT_EMPIRE_COLOR (by decide)
        rw [hstep]
        exact updFn_self s.store n.1 _
      · obtain ⟨p, hp⟩ : ∃ p, s.store n.1 = some p := by
          rcases hs : s.store n.1 with _ | p
          · rw [hs] at hf; simp [colorFalsy] at hf
          · exact ⟨p, rfl⟩
        obtain ⟨cc, hcc, hccne⟩ : ∃ cc, p.color = some cc ∧ cc ≠ "" := by
          rcases hc : p.color with _ | cc
          · rw [hp] at hf; simp [colorFalsy, hc] at hf
          · refine ⟨cc, rfl, ?_⟩
            intro hE
            rw [hp] at hf
            simp [colorFalsy, hc, hE] at hf
        by_cases hname : p.name = some n.2
        · have hstep := apply_colors_step_truthy_eq s n p cc hp hcc hccne hname
          refine ⟨cc, hccne, ?_⟩
          apply hfrozen cc hccne
          rw [hstep]
          have hpE : p = ⟨some n.2, some cc⟩ := by
            obtain ⟨pn, pc⟩ := p
            simp only [ColorEntry.mk.injEq]
            exact ⟨by simpa using hname, by simpa using hcc⟩
          show s.store n.1 = _
          rw [hp, hpE]
        · have hstep := apply_colors_step_truthy_ne s n p cc hp hcc hccne hname
          refine ⟨cc, hccne, ?_⟩
          apply hfrozen cc hccne
          rw [hstep]
          exact updFn_self s.store n.1 _
    · rw [apply_colors_loop_cons]
      exact ih (apply_colors_step s m)
        (fun a b ha hb => hH a b (List.mem_cons_of_mem m ha) (List.mem_cons_of_mem m hb))
        n hmem

theorem loop_no_update (l : List OwnerKey) (s : ColorState) (hu : s.updated = false)
    (hgood : ∀ n ∈ l, ∃ c, c ≠ "" ∧ s.store n.1 = some ⟨some n.2, some c⟩) :
    (apply_colors_loop l s).updated = false ∧ (apply_colors_loop l s).store = s.store := by
  induction l generalizing s with
  | nil => exact ⟨hu, rfl⟩
  | cons n rest ih =>
    obtain ⟨c, hcne, hst⟩ := hgood n (List.mem_cons_self n rest)
    have hstep := apply_colors_step_truthy_eq s n ⟨some n.2, some c⟩ c hst rfl hcne rfl
    rw [apply_colors_loop_cons, hstep]
    exact ih ⟨updFn s.assigned n (some c), s.store, s.updated⟩ hu
      (fun m hm => hgood m (List.mem_cons_of_mem n hm))

theorem loop_falsy_main (l : List OwnerKey) (s : ColorState) (eid : ℤ)
    (h : colorFalsy (s.store eid) = true ∨
         ((∃ nm, s.store eid = some ⟨nm, some DEFAULT_EMPIRE_COLOR⟩) ∧ s.updated = true)) :
    (∀ n ∈ l, n.1 = eid →
        (apply_colors_loop l s).assigned n = some DEFAULT_EMPIRE_COLOR) ∧
    ((∃ n ∈ l, n.1 = eid) →
      (∃ nm, (apply_colors_loop l s).store eid = some ⟨nm, some DEFAULT_EMPIRE_COLOR⟩) ∧
      (apply_colors_loop l s).updated = true) := by
  have hd : DEFAULT_EMPIRE_COLOR ≠ "" := by decide
  induction l generalizing s with
  | nil =>
    refine ⟨fun n hmem => absurd hmem (List.not_mem_nil n), ?_⟩
    rintro ⟨n, hmem, -⟩
    exact absurd hmem (List.not_mem_nil n)
  | cons m rest ih =>
    rw [apply_colors_loop_cons]
    by_cases hid : m.1 = eid
    · have hKey : (apply_colors_step s m).store eid =
            some ⟨some m.2, some DEFAULT_EMPIRE_COLOR⟩ ∨
          (∃ nm, (apply_colors_step s m).store eid =
            some ⟨nm, some DEFAULT_EMPIRE_COLOR⟩) := by
        rcases h with hf | ⟨⟨nm, hnm⟩, hupd⟩
        · left
          rw [apply_colors_step_falsy s m (by rw [hid]; exact hf)]
          show updFn s.store m.1 _ eid = _
          rw [← hid]
          exact updFn_self s.store m.1 _
        · right
          by_cases hname : nm = some m.2
          · rw [apply_colors_step_truthy_eq s m ⟨nm, some DEFAULT_EMPIRE_COLOR⟩
              DEFAULT_EMPIRE_COLOR (by rw [hid]; exact hnm) rfl hd (by simpa using hname)]
            exact ⟨nm, hnm⟩
          · rw [apply_colors_step_truthy_ne s m ⟨nm, some DEFAULT_EMPIRE_COLOR⟩
              DEFAULT_EMPIRE_COLOR (by rw [hid]; exact hnm) rfl hd (by simpa using hname)]
            refine ⟨some m.2, ?_⟩
            show updFn s.store m.1 _ eid = _
            rw [← hid]
            exact updFn_self s.store m.1 _
      have hStored : ∃ nm, (apply_colors_step s m).store eid =
          some ⟨nm, some DEFAULT_EMPIRE_COLOR⟩ := by
        rcases hKey with hk | hk
        · exact ⟨some m.2, hk⟩
        · exact hk
      have hAss : (apply_colors_step s m).assigned m = some DEFAULT_EMPIRE_COLOR := by
        rcases h with hf | ⟨⟨nm, hnm⟩, hupd⟩
        · rw [apply_colors_step_falsy s m (by rw [hid]; exact hf)]
          exact updFn_self s.assigned m _
        · by_cases hname : nm = some m.2
          · rw [apply_colors_step_truthy_eq s m ⟨nm, some DEFAULT_EMPIRE_COLOR⟩
              DEFAULT_EMPIRE_COLOR (by rw [hid]; exact hnm) rfl hd (by simpa using hname)]
            exact updFn_self s.assigned m _
          · rw [apply_colors_step_truthy_ne s m ⟨nm, some DEFAULT_EMPIRE_COLOR⟩
              DEFAULT_EMPIRE_COLOR (by rw [hid]; exact hnm) rfl hd (by simpa using hname)]
            exact updFn_self s.assigned m _
      have hUpd : (apply_colors_step s m).updated = true := by
        rcases h with hf | ⟨⟨nm, hnm⟩, hupd⟩
        · rw [apply_colors_step_falsy s m (by rw [hid]; exact hf)]
        · by_cases hname : nm = some m.2
          · rw [apply_colors_step_truthy_eq s m ⟨nm, some DEFAULT_EMPIRE_COLOR⟩
              DEFAULT_EMPIRE_COLOR (by rw [hid]; exact hnm) rfl hd (by simpa using hname)]
            exact hupd
          · rw [apply_colors_step_truthy_ne s m ⟨nm, some DEFAULT_EMPIRE_COLOR⟩
              DEFAULT_EMPIRE_COLOR (by rw [hid]; exact hnm) rfl hd (by simpa using hname)]
      have hinv := loop_truthy_invariant rest (apply_colors_step s m) eid
        DEFAULT_EMPIRE_COLOR hd hStored
      refine ⟨?_, fun _ => ⟨hinv.1, loop_updated_mono rest _ hUpd⟩⟩
      intro n hmem h1
      rcases List.mem_cons.mp hmem with rfl | hm
      · exact hinv.2.1 n h1 hAss
      · exact hinv.2.2 n hm h1
    · have hso := apply_colors_step_store_other s m eid hid
      have h1 : colorFalsy ((apply_colors_step s m).store eid) = true ∨
          ((∃ nm, (apply_colors_step s m).store eid =
            some ⟨nm, some DEFAULT_EMPIRE_COLOR⟩) ∧
           (apply_colors_step s m).updated = true) := by
        rcases h with hf | ⟨⟨nm, hnm⟩, hupd⟩
        · left; rw [hso]; exact hf
        · right
          exact ⟨⟨nm, by rw [hso]; exact hnm⟩, apply_colors_step_updated_mono s m hupd⟩
      have ihh := ih (apply_colors_step s m) h1
      refine ⟨?_, ?_⟩
      · intro n hmem hn1
        rcases List.mem_cons.mp hmem with rfl | hm
        · exact absurd hn1 hid
        · exact ihh.1 n hm hn1
      · rintro ⟨n, hmem, hn1⟩
        rcases List.mem_cons.mp hmem with rfl | hm
        · exact absurd hn1 hid
        · exact ihh.2 ⟨n, hm, hn1⟩

/-! ## Claim C1 — color selection for owners without a stored color -/

/-- C1 counterexample: take the adjacency graph with the single edge
between (1,"a") and (2,"b") — both of degree 1, ties broken by owner key —
and the empty persisted store.  The claimed greedy procedure processes
(1,"a") first and gives it palette[0] = "#FF5500ff"; (2,"b") must then
receive the first palette color not used by its colored neighbor, namely
palette[1] = "#AAFF00ff".  The code instead assigns (2,"b") the fixed
default color "#FF5500ff" — `apply_colors_from_store` takes no adjacency
input at all and never consults the palette. -/
theorem C1_counterexample_default_not_greedy :
    (apply_colors_from_store emptyStore [(1, "a"), (2, "b")]).assigned (2, "b") =
      some "#FF5500ff" ∧
    palette.getD 1 "" = "#AAFF00ff" ∧
    ("#FF5500ff" : String) ≠ "#AAFF00ff" := by
  refine ⟨by decide, rfl, by decide⟩

/-- C1 (amended): when `apply_colors_from_store` processes an owner whose id
has no non-empty color in the persisted store, it assigns the fixed default
color `#FF5500ff` (consulting neither the adjacency graph nor the palette),
and the new assignment is recorded in the store with the updated flag set. -/
theorem C1_amended_default_color_recorded
    (store0 : ℤ → Option ColorEntry) (nodes : List OwnerKey) (eid : ℤ)
    (hfalsy : colorFalsy (store0 eid) = true) :
    (∀ n ∈ nodes, n.1 = eid →
        (apply_colors_from_store store0 nodes).assigned n = some DEFAULT_EMPIRE_COLOR) ∧
    ((∃ n ∈ nodes, n.1 = eid) →
      (∃ nm, (apply_colors_from_store store0 nodes).store eid =
          some ⟨nm, some DEFAULT_EMPIRE_COLOR⟩) ∧
      (apply_colors_from_store store0 nodes).updated = true) :=
  loop_falsy_main nodes ⟨fun _ => none, store0, false⟩ eid (Or.inl hfalsy)

/-- Witness for C1 (amended): on the empty store and the single node
(3,"c"), the run assigns the default color and records it. -/
theorem C1_witness :
    colorFalsy (emptyStore 3) = true ∧
    (apply_colors_from_store emptyStore [((3 : ℤ), "c")]).assigned (3, "c") =
      some DEFAULT_EMPIRE_COLOR ∧
    (apply_colors_from_store emptyStore [((3 : ℤ), "c")]).updated = true := by
  refine ⟨rfl, ?_, ?_⟩
  · exact (C1_amended_default_color_recorded emptyStore [((3 : ℤ), "c")] 3 rfl).1
      (3, "c") (by simp) rfl
  · exact ((C1_amended_default_color_recorded emptyStore [((3 : ℤ), "c")] 3 rfl).2
      ⟨(3, "c"), by simp, rfl⟩).2

/-! ## Claim C2 — store precedence and idempotence -/

/-- C2 counterexample: with the node list [(1,"a"), (1,"b")] — the same
empire id under two different names, a node set the claim quantifies over —
the store produced by a first run over the empty store still gets mutated
by a second run over the same node list (the updated flag is true), because
each run flips the stored name between "a" and "b". -/
theorem C2_counterexample_duplicate_id_mutation :
    (apply_colors_from_store
      (apply_colors_from_store emptyStore [(1, "a"), (1, "b")]).store
      [(1, "a"), (1, "b")]).updated = true := by decide

/-- C2 (amended): for every owner id that already has a non-empty persisted
color, a run of `apply_colors_from_store` returns exactly that stored color
for every node carrying the id — unconditionally, for every node list; and,
provided any two nodes sharing an empire id carry the same name, running
the assigner a second time over the same node list and the store produced
by the first run leaves the store-updated flag false (so no save occurs)
and the store pointwise unchanged. -/
theorem C2_amended_store_precedence_and_idempotence
    (store0 : ℤ → Option ColorEntry) (nodes : List OwnerKey) :
    (∀ (n : OwnerKey) (c : String), n ∈ nodes → storeColor store0 n.1 = some c →
        c ≠ "" → (apply_colors_from_store store0 nodes).assigned n = some c) ∧
    ((∀ a b : OwnerKey, a ∈ nodes → b ∈ nodes → a.1 = b.1 → a.2 = b.2) →
      (apply_colors_from_store
          (apply_colors_from_store store0 nodes).store nodes).updated = false ∧
      (apply_colors_from_store
          (apply_colors_from_store store0 nodes).store nodes).store =
        (apply_colors_from_store store0 nodes).store) := by
  refine ⟨?_, ?_⟩
  · intro n c hn hsc hcne
    rcases hp : store0 n.1 with _ | p
    · simp only [storeColor, hp, Option.none_bind] at hsc
      cases hsc
    · obtain ⟨nm, col⟩ := p
      simp only [storeColor, hp, Option.some_bind] at hsc
      refine (loop_truthy_invariant nodes ⟨fun _ => none, store0, false⟩ n.1 c hcne
        ⟨nm, ?_⟩).2.2 n hn rfl
      show store0 n.1 = some ⟨nm, some c⟩
      rw [hp, show col = some c from hsc]
  · intro hH
    have hpost := loop_post_store nodes ⟨fun _ => none, store0, false⟩ hH
    exact loop_no_update nodes
      ⟨fun _ => none, (apply_colors_from_store store0 nodes).store, false⟩ rfl
      (fun n hn => hpost n hn)

/-- Witness for C2 (amended): the unconditional precedence conjunct is
exercised on a store holding color "#123456ff" for id 1 with a node list
that even duplicates the id under two names, and the conditional
idempotence conjunct on the node list [(1,"a"), (2,"b")] with
pairwise-distinct ids. -/
theorem C2_witness :
    (apply_colors_from_store
      (fun eid => if eid = 1 then some ⟨some "a", some "#123456ff"⟩ else none)
      [((1 : ℤ), "a"), (1, "z")]).assigned (1, "z") = some "#123456ff" ∧
    (∀ a b : OwnerKey, a ∈ [((1 : ℤ), "a"), (2, "b")] →
        b ∈ [((1 : ℤ), "a"), (2, "b")] → a.1 = b.1 → a.2 = b.2) ∧
    (apply_colors_from_store
      (fun eid => if eid = 1 then some ⟨some "a", some "#123456ff"⟩ else none)
      [((1 : ℤ), "a"), (2, "b")]).assigned (1, "a") = some "#123456ff" ∧
    (apply_colors_from_store
      (apply_colors_from_store
        (fun eid => if eid = 1 then some ⟨some "a", some "#123456ff"⟩ else none)
        [((1 : ℤ), "a"), (2, "b")]).store
      [((1 : ℤ), "a"), (2, "b")]).updated = false := by
  have hH : ∀ a b : OwnerKey, a ∈ [((1 : ℤ), "a"), (2, "b")] →
      b ∈ [((1 : ℤ), "a"), (2, "b")] → a.1 = b.1 → a.2 = b.2 := by
    intro a b ha hb hab
    simp only [List.mem_cons, List.not_mem_nil, or_false] at ha hb
    rcases ha with rfl | rfl <;> rcases hb with rfl | rfl <;> first | rfl | (exfalso; omega)
  refine ⟨?_, hH, ?_, ?_⟩
  · exact (C2_amended_store_precedence_and_idempotence
      (fun eid => if eid = 1 then some ⟨some "a", some "#123456ff"⟩ else none)
      [((1 : ℤ), "a"), (1, "z")]).1 (1, "z") "#123456ff" (by simp) rfl (by decide)
  · exact (C2_amended_store_precedence_and_idempotence _ _).1 (1, "a") "#123456ff"
      (by simp) rfl (by decide)
  · exact ((C2_amended_store_precedence_and_idempotence _ _).2 hH).1

/-! ## Sorting lemmas for the coloring order -/

theorem insertDescBy_perm (k : OwnerKey → ℕ) (x : OwnerKey) (l : List OwnerKey) :
    List.Perm (insertDescBy k x l) (x :: l) := by
  induction l with
  | nil => exact List.Perm.refl _
  | cons y ys ih =>
    simp only [insertDescBy]
    by_cases h : k y ≤ k x
    · rw [if_pos h]
    · rw [if_neg h]
      exact (ih.cons y).trans (List.Perm.swap x y ys)

theorem sortByKeyDesc_perm (k : OwnerKey → ℕ) (l : List OwnerKey) :
    List.Perm (sortByKeyDesc k l) l := by
  induction l with
  | nil => exact List.Perm.refl _
  | cons x xs ih => exact (insertDescBy_perm k x _).trans (ih.cons x)

theorem insertDescBy_sorted (k : OwnerKey → ℕ) (x : OwnerKey) (l : List OwnerKey)
    (h : List.Sorted (fun a b => k b ≤ k a) l) :
    List.Sorted (fun a b => k b ≤ k a) (insertDescBy k x l) := by
  induction l with
  | nil => simp [insertDescBy]
  | cons y ys ih =>
    simp only [insertDescBy]
    by_cases hc : k y ≤ k x
    · rw [if_pos hc]
      rw [List.sorted_cons]
      refine ⟨?_, h⟩
      intro b hb
      rcases List.mem_cons.mp hb with rfl | hb2
      · exact hc
      · exact le_trans ((List.sorted_cons.mp h).1 b hb2) hc
    · rw [if_neg hc]
      rw [List.sorted_cons]
      have hys := (List.sorted_cons.mp h).2
      refine ⟨?_, ih hys⟩
      intro b hb
      have hbm : b ∈ x :: ys := (insertDescBy_perm k x ys).mem_iff.mp hb
      rcases List.mem_cons.mp hbm with rfl | hb2
      · exact (lt_of_not_le hc).le
      · exact (List.sorted_cons.mp h).1 b hb2

theorem sortByKeyDesc_sorted (k : OwnerKey → ℕ) (l : List OwnerKey) :
    List.Sorted (fun a b => k b ≤ k a) (sortByKeyDesc k l) := by
  induction l with
  | nil => simp [sortByKeyDesc]
  | cons x xs ih => exact insertDescBy_sorted k x _ ih

theorem insertDescBy_filter (k : OwnerKey → ℕ) (x : OwnerKey) (l : List OwnerKey) (m : ℕ) :
    (insertDescBy k x l).filter (fun n => k n == m) =
      if k x == m then x :: l.filter (fun n => k n == m)
      else l.filter (fun n => k n == m) := by
  induction l with
  | nil =>
    by_cases hx : (k x == m) = true
    · simp [insertDescBy, List.filter, hx]
    · simp [insertDescBy, List.filter, hx]
  | cons y ys ih =>
    simp only [insertDescBy]
    by_cases hc : k y ≤ k x
    · rw [if_pos hc]
      by_cases hx : (k x == m) = true
      · simp [List.filter_cons, hx]
      · simp [List.filter_cons, hx]
    · rw [if_neg hc]
      by_cases hy : (k y == m) = true
      · have hkm : k y = m := by simpa using hy
        have hx : (k x == m) = false := by
          refine beq_eq_false_iff_ne.mpr ?_
          intro hE
          exact hc (by omega)
        simp [List.filter_cons, hy, hx, ih]
      · simp [List.filter_cons, hy, ih]

theorem sortByKeyDesc_filter (k : OwnerKey → ℕ) (l : List OwnerKey) (m : ℕ) :
    (sortByKeyDesc k l).filter (fun n => k n == m) = l.filter (fun n => k n == m) := by
  induction l with
  | nil => rfl
  | cons x xs ih =>
    simp only [sortByKeyDesc]
    rw [insertDescBy_filter]
    by_cases hx : (k x == m) = true
    · simp [List.filter_cons, hx, ih]
    · simp [List.filter_cons, hx, ih]

/-! ## Claim C4 — coloring order -/

/-- C4 counterexample: with the empty adjacency graph (all degrees 0) and the
node list [(2,"b"), (1,"a")], the stable sort of the code keeps the input order
[(2,"b"), (1,"a")], while the claimed owner-key tie-break would have to
produce [(1,"a"), (2,"b")]. -/
theorem C4_counterexample_ties_not_broken_by_key :
    sortByKeyDesc (fun n => ((fun _ : OwnerKey => (∅ : Finset OwnerKey)) n).card)
        [(2, "b"), (1, "a")] = [(2, "b"), (1, "a")] ∧
    [((2 : ℤ), "b"), ((1 : ℤ), "a")] ≠ [((1 : ℤ), "a"), ((2 : ℤ), "b")] :=
  ⟨by decide, by decide⟩

/-- C4 (amended): before assigning colors, the assigner orders the owners by
descending adjacency-degree with a stable sort — ties keep the order of the
input node list (they are not broken by owner key) — so the processing
order is deterministic given the adjacency graph and the input node order.
Stability is expressed by the filter identity: restricting the sorted list
to any fixed degree yields exactly the same sublist as restricting the
input. -/
theorem C4_amended_stable_degree_sort (adjacency : OwnerKey → Finset OwnerKey)
    (nodes : List OwnerKey) :
    List.Perm (sortByKeyDesc (fun n => (adjacency n).card) nodes) nodes ∧
    List.Sorted (fun a b => (adjacency b).card ≤ (adjacency a).card)
      (sortByKeyDesc (fun n => (adjacency n).card) nodes) ∧
    (∀ m : ℕ,
      (sortByKeyDesc (fun n => (adjacency n).card) nodes).filter
          (fun n => (adjacency n).card == m) =
        nodes.filter (fun n => (adjacency n).card == m)) :=
  ⟨sortByKeyDesc_perm _ _, sortByKeyDesc_sorted _ _,
   fun m => sortByKeyDesc_filter _ _ m⟩

/-! ## Adjacency-graph lemmas -/

theorem mem_addEdge (adj : OwnerKey → Finset OwnerKey) (x y a b : OwnerKey) :
    b ∈ addEdge adj x y a ↔ b ∈ adj a ∨ (a = x ∧ b = y) ∨ (a = y ∧ b = x) := by
  unfold addEdge
  by_cases h1 : a = x
  · rw [if_pos h1, Finset.mem_insert]
    constructor
    · rintro (rfl | hb)
      · exact Or.inr (Or.inl ⟨h1, rfl⟩)
      · exact Or.inl hb
    · rintro (hb | ⟨-, rfl⟩ | ⟨ha, hbx⟩)
      · exact Or.inr hb
      · exact Or.inl rfl
      · exact Or.inl (hbx.trans (h1.symm.trans ha))
  · rw [if_neg h1]
    by_cases h2 : a = y
    · rw [if_pos h2, Finset.mem_insert]
      constructor
      · rintro (rfl | hb)
        · exact Or.inr (Or.inr ⟨h2, rfl⟩)
        · exact Or.inl hb
      · rintro (hb | ⟨ha, -⟩ | ⟨-, rfl⟩)
        · exact Or.inr hb
        · exact absurd ha h1
        · exact Or.inl rfl
    · rw [if_neg h2]
      constructor
      · exact fun hb => Or.inl hb
      · rintro (hb | ⟨ha, -⟩ | ⟨ha, -⟩)
        · exact hb
        · exact absurd ha h1
        · exact absurd ha h2

theorem mem_edgeFold_aux (nodes : List OwnerKey) (cond : ℕ → ℕ → Bool)
    (ps : List (ℕ × ℕ)) (adj0 : OwnerKey → Finset OwnerKey) (a b : OwnerKey) :
    b ∈ (ps.foldl
        (fun adj p =>
          if cond p.1 p.2 then
            addEdge adj (nodes.getD p.1 dfltOwner) (nodes.getD p.2 dfltOwner)
          else adj) adj0) a ↔
      b ∈ adj0 a ∨ ∃ p ∈ ps, cond p.1 p.2 = true ∧
        ((a = nodes.getD p.1 dfltOwner ∧ b = nodes.getD p.2 dfltOwner) ∨
         (a = nodes.getD p.2 dfltOwner ∧ b = nodes.getD p.1 dfltOwner)) := by
  induction ps generalizing adj0 with
  | nil => simp
  | cons p ps ih =>
    rw [List.foldl_cons, ih]
    by_cases hc : cond p.1 p.2 = true
    · rw [if_pos hc, mem_addEdge]
      constructor
      · rintro ((h | hpq) | ⟨q, hq, hcq, hor⟩)
        · exact Or.inl h
        · exact Or.inr ⟨p, List.mem_cons_self p ps, hc, hpq⟩
        · exact Or.inr ⟨q, List.mem_cons_of_mem p hq, hcq, hor⟩
      · rintro (h | ⟨q, hq, hcq, hor⟩)
        · exact Or.inl (Or.inl h)
        · rcases List.mem_cons.mp hq with rfl | hq2
          · exact Or.inl (Or.inr hor)
          · exact Or.inr ⟨q, hq2, hcq, hor⟩
    · rw [if_neg hc]
      constructor
      · rintro (h | ⟨q, hq, hcq, hor⟩)
        · exact Or.inl h
        · exact Or.inr ⟨q, List.mem_cons_of_mem p hq, hcq, hor⟩
      · rintro (h | ⟨q, hq, hcq, hor⟩)
        · exact Or.inl h
        · rcases List.mem_cons.mp hq with rfl | hq2
          · exact absurd hcq hc
          · exact Or.inr ⟨q, hq2, hcq, hor⟩

theorem mem_edgeFold (nodes : List OwnerKey) (cond : ℕ → ℕ → Bool)
    (ps : List (ℕ × ℕ)) (a b : OwnerKey) :
    b ∈ edgeFold nodes cond ps a ↔
      ∃ p ∈ ps, cond p.1 p.2 = true ∧
        ((a = nodes.getD p.1 dfltOwner ∧ b = nodes.getD p.2 dfltOwner) ∨
         (a = nodes.getD p.2 dfltOwner ∧ b = nodes.getD p.1 dfltOwner)) := by
  unfold edgeFold
  rw [mem_edgeFold_aux]
  simp

theorem mem_pairIndexList (n : ℕ) (p : ℕ × ℕ) :
    p ∈ pairIndexList n ↔ p.1 < n ∧ p.2 < n ∧ p.1 < p.2 := by
  unfold pairIndexList
  obtain ⟨p1, p2⟩ := p
  simp only [List.mem_flatMap, List.mem_map, List.mem_filter, List.mem_range,
    Prod.mk.injEq, decide_eq_true_eq]
  constructor
  · rintro ⟨i, hi, j, ⟨hj, hij⟩, rfl, rfl⟩
    exact ⟨hi, hj, hij⟩
  · rintro ⟨h1, h2, h3⟩
    exact ⟨p1, h1, p2, ⟨h2, h3⟩, rfl, rfl⟩

theorem mem_candIndexList (n : ℕ) (query : ℕ → List ℕ) (p : ℕ × ℕ) :
    p ∈ candIndexList n query ↔ p.1 < n ∧ p.2 ∈ query p.1 := by
  unfold candIndexList
  obtain ⟨p1, p2⟩ := p
  simp only [List.mem_flatMap, List.mem_map, List.mem_range, Prod.mk.injEq]
  constructor
  · rintro ⟨i, hi, j, hj, rfl, rfl⟩
    exact ⟨hi, hj⟩
  · rintro ⟨h1, h2⟩
    exact ⟨p1, h1, p2, h2, rfl, rfl⟩

theorem mem_pairwise_adjacency {β : Type} (nodes : List OwnerKey) (geom : OwnerKey → β)
    (pred : β → β → Bool) (a b : OwnerKey) :
    b ∈ pairwise_adjacency nodes geom pred a ↔
      ∃ i j : ℕ, i < nodes.length ∧ j < nodes.length ∧ i < j ∧
        pred (geom (nodes.getD i dfltOwner)) (geom (nodes.getD j dfltOwner)) = true ∧
        ((a = nodes.getD i dfltOwner ∧ b = nodes.getD j dfltOwner) ∨
         (a = nodes.getD j dfltOwner ∧ b = nodes.getD i dfltOwner)) := by
  unfold pairwise_adjacency
  rw [mem_edgeFold]
  constructor
  · rintro ⟨p, hp, hc, hor⟩
    have hm := (mem_pairIndexList _ p).mp hp
    exact ⟨p.1, p.2, hm.1, hm.2.1, hm.2.2, hc, hor⟩
  · rintro ⟨i, j, h1, h2, h3, hc, hor⟩
    exact ⟨(i, j), (mem_pairIndexList _ (i, j)).mpr ⟨h1, h2, h3⟩, hc, hor⟩

theorem mem_strtree_adjacency {β : Type} (nodes : List OwnerKey) (geom : OwnerKey → β)
    (pred : β → β → Bool) (query : ℕ → List ℕ) (a b : OwnerKey) :
    b ∈ strtree_adjacency nodes geom pred query a ↔
      ∃ i j : ℕ, i < nodes.length ∧ j ∈ query i ∧ j ≠ i ∧ j < nodes.length ∧
        pred (geom (nodes.getD i dfltOwner)) (geom (nodes.getD j dfltOwner)) = true ∧
        ((a = nodes.getD i dfltOwner ∧ b = nodes.getD j dfltOwner) ∨
         (a = nodes.getD j dfltOwner ∧ b = nodes.getD i dfltOwner)) := by
  unfold strtree_adjacency
  rw [mem_edgeFold]
  constructor
  · rintro ⟨p, hp, hc, hor⟩
    have hm := (mem_candIndexList _ _ p).mp hp
    simp only [Bool.and_eq_true, Bool.not_eq_eq_eq_not, Bool.not_true, beq_eq_false_iff_ne,
      decide_eq_true_eq] at hc
    exact ⟨p.1, p.2, hm.1, hm.2, hc.1.1, hc.1.2, hc.2, hor⟩
  · rintro ⟨i, j, h1, h2, h3, h4, h5, hor⟩
    refine ⟨(i, j), (mem_candIndexList _ _ (i, j)).mpr ⟨h1, h2⟩, ?_, hor⟩
    simp only [Bool.and_eq_true, Bool.not_eq_eq_eq_not, Bool.not_true, beq_eq_false_iff_ne,
      decide_eq_true_eq]
    exact ⟨⟨h3, h4⟩, h5⟩

/-! ## Claim C5 — the two adjacency regimes agree -/

/-- C5 (confirmed): under the external contracts of the geometry capability
and the spatial index — the intersects-or-touches predicate is symmetric
(the "modulo floating-point geometry edge cases" proviso), and the index
query is complete, returning every spatially interacting partner as a
candidate — the spatial-index regime produces exactly the same adjacency
relation as the O(n^2) pairwise regime on the same merged geometries. -/
theorem C5_strtree_equals_pairwise {β : Type} (nodes : List OwnerKey)
    (geom : OwnerKey → β) (pred : β → β → Bool) (query : ℕ → List ℕ)
    (hsym : ∀ u v : β, pred u v = pred v u)
    (hcomp : ∀ i j : ℕ, i < nodes.length → j < nodes.length → i ≠ j →
        pred (geom (nodes.getD i dfltOwner)) (geom (nodes.getD j dfltOwner)) = true →
        j ∈ query i) :
    ∀ a b : OwnerKey, b ∈ strtree_adjacency nodes geom pred query a ↔
      b ∈ pairwise_adjacency nodes geom pred a := by
  intro a b
  rw [mem_strtree_adjacency, mem_pairwise_adjacency]
  constructor
  · rintro ⟨i, j, h1, h2, h3, h4, h5, hor⟩
    by_cases hij : i < j
    · exact ⟨i, j, h1, h4, hij, h5, hor⟩
    · have hji : j < i := by omega
      refine ⟨j, i, h4, h1, hji, ?_, hor.symm⟩
      rw [hsym]
      exact h5
  · rintro ⟨i, j, h1, h2, h3, hc, hor⟩
    exact ⟨i, j, h1, hcomp i j h1 h2 (by omega) hc, by omega, h2, hc, hor⟩

/-- Witness for C5: two owners whose dummy geometries always interact, with
the complete candidate query returning both indices. -/
theorem C5_witness :
    (((2 : ℤ), "b") ∈ strtree_adjacency [((1 : ℤ), "a"), (2, "b")] (fun _ => true)
        (fun u v => u && v) (fun _ => [0, 1]) (1, "a")) ↔
      (((2 : ℤ), "b") ∈ pairwise_adjacency [((1 : ℤ), "a"), (2, "b")] (fun _ => true)
        (fun u v => u && v) (1, "a")) :=
  C5_strtree_equals_pairwise [((1 : ℤ), "a"), (2, "b")] (fun _ => true)
    (fun u v => u && v) (fun _ => [0, 1]) (by decide)
    (fun i j hi hj hne hp => by
      have hj2 : j = 0 ∨ j = 1 := by
        simp only [List.length_cons, List.length_nil] at hj
        omega
      rcases hj2 with rfl | rfl <;> simp)
    (1, "a") (2, "b")

/-! ## Claim C6 — adjacency is symmetric and irreflexive -/

/-- C6 (confirmed): for duplicate-free node lists (dict keys), the adjacency
maps built by either regime are symmetric — every edge is inserted in both
directions — and irreflexive: the pairwise loop only visits index pairs
`i < j` and the spatial-index loop skips `j = i`, so with distinct node
keys no owner ever appears in its own neighbor set. -/
theorem C6_adjacency_symmetric_irreflexive {β : Type} (nodes : List OwnerKey)
    (geom : OwnerKey → β) (pred : β → β → Bool) (query : ℕ → List ℕ)
    (hnd : nodes.Nodup) :
    (∀ a b : OwnerKey, b ∈ pairwise_adjacency nodes geom pred a ↔
        a ∈ pairwise_adjacency nodes geom pred b) ∧
    (∀ a : OwnerKey, a ∉ pairwise_adjacency nodes geom pred a) ∧
    (∀ a b : OwnerKey, b ∈ strtree_adjacency nodes geom pred query a ↔
        a ∈ strtree_adjacency nodes geom pred query b) ∧
    (∀ a : OwnerKey, a ∉ strtree_adjacency nodes geom pred query a) := by
  have hinj : ∀ i j : ℕ, i < nodes.length → j < nodes.length → i ≠ j →
      nodes.getD i dfltOwner ≠ nodes.getD j dfltOwner := by
    intro i j hi hj hij hE
    rw [List.getD_eq_getElem nodes dfltOwner hi, List.getD_eq_getElem nodes dfltOwner hj] at hE
    exact hij ((List.Nodup.getElem_inj_iff hnd).mp hE)
  refine ⟨?_, ?_, ?_, ?_⟩
  · intro a b
    rw [mem_pairwise_adjacency, mem_pairwise_adjacency]
    constructor <;>
      · rintro ⟨i, j, h1, h2, h3, hc, hor⟩
        exact ⟨i, j, h1, h2, h3, hc, hor.imp (fun h => ⟨h.2, h.1⟩) (fun h => ⟨h.2, h.1⟩) |>.symm⟩
  · intro a ha
    rw [mem_pairwise_adjacency] at ha
    obtain ⟨i, j, h1, h2, h3, -, hor⟩ := ha
    rcases hor with ⟨hA, hB⟩ | ⟨hA, hB⟩
    · exact hinj i j h1 h2 (by omega) (hA.symm.trans hB)
    · exact hinj i j h1 h2 (by omega) (hB.symm.trans hA)
  · intro a b
    rw [mem_strtree_adjacency, mem_strtree_adjacency]
    constructor <;>
      · rintro ⟨i, j, h1, h2, h3, h4, hc, hor⟩
        exact ⟨i, j, h1, h2, h3, h4, hc,
          hor.imp (fun h => ⟨h.2, h.1⟩) (fun h => ⟨h.2, h.1⟩) |>.symm⟩
  · intro a ha
    rw [mem_strtree_adjacency] at ha
    obtain ⟨i, j, h1, h2, h3, h4, -, hor⟩ := ha
    rcases hor with ⟨hA, hB⟩ | ⟨hA, hB⟩
    · exact hinj i j h1 h4 (fun hE => h3 hE.symm) (hA.symm.trans hB)
    · exact hinj i j h1 h4 (fun hE => h3 hE.symm) (hB.symm.trans hA)

/-- Witness for C6: a concrete duplicate-free node pair; neither owner is its
own neighbor in either regime. -/
theorem C6_witness :
    ([((1 : ℤ), "a"), ((2 : ℤ), "b")] : List OwnerKey).Nodup ∧
    (((1 : ℤ), "a") ∉ pairwise_adjacency [((1 : ℤ), "a"), (2, "b")] (fun _ => true)
        (fun u v : Bool => u && v) (1, "a")) ∧
    (((1 : ℤ), "a") ∉ strtree_adjacency [((1 : ℤ), "a"), (2, "b")] (fun _ => true)
        (fun u v : Bool => u && v) (fun _ => [0, 1]) (1, "a")) := by
  have hnd : ([((1 : ℤ), "a"), ((2 : ℤ), "b")] : List OwnerKey).Nodup := by decide
  refine ⟨hnd, ?_, ?_⟩
  · exact (C6_adjacency_symmetric_irreflexive [((1 : ℤ), "a"), (2, "b")] (fun _ => true)
      (fun u v : Bool => u && v) (fun _ => [0, 1]) hnd).2.1 (1, "a")
  · exact (C6_adjacency_symmetric_irreflexive [((1 : ℤ), "a"), (2, "b")] (fun _ => true)
      (fun u v : Bool => u && v) (fun _ => [0, 1]) hnd).2.2.2 (1, "a")

/-! ## Territory-aggregation lemmas -/

theorem chunk_bounds_inj (a b c d : ℤ) (h : chunk_bounds a b = chunk_bounds c d) :
    a = c ∧ b = d := by
  simp only [chunk_bounds, List.cons.injEq, Prod.mk.injEq, and_true] at h
  obtain ⟨⟨h1, h2⟩, -⟩ := h
  constructor <;> omega

theorem assoc_keys_unique (l : List ((ℤ × ℤ) × List OwnerKey))
    (hkeys : (l.map Prod.fst).Nodup) (c : ℤ × ℤ) (os os2 : List OwnerKey)
    (h1 : (c, os) ∈ l) (h2 : (c, os2) ∈ l) : os = os2 := by
  induction l with
  | nil => cases h1
  | cons e rest ih =>
    rw [List.map_cons, List.nodup_cons] at hkeys
    rcases List.mem_cons.mp h1 with hE1 | hm1
    · rcases List.mem_cons.mp h2 with hE2 | hm2
      · rw [← hE1] at hE2
        injection hE2 with hxx hos
        exact hos.symm
      · exfalso
        apply hkeys.1
        rw [show e.1 = c from by rw [← hE1]]
        exact List.mem_map.mpr ⟨(c, os2), hm2, rfl⟩
    · rcases List.mem_cons.mp h2 with hE2 | hm2
      · exfalso
        apply hkeys.1
        rw [show e.1 = c from by rw [← hE2]]
        exact List.mem_map.mpr ⟨(c, os), hm1, rfl⟩
      · exact ih hkeys.2 hm1 hm2

theorem mem_build_owner (l : List ((ℤ × ℤ) × List OwnerKey)) (o : OwnerKey)
    (p : ChunkPoly) :
    p ∈ (build_owner_and_contested_polys l).1 o ↔
      ∃ c os, (c, os) ∈ l ∧ os = [o] ∧ p = chunk_bounds c.1 c.2 := by
  induction l with
  | nil => simp [build_owner_and_contested_polys]
  | cons entry rest ih =>
    obtain ⟨c0, os0⟩ := entry
    rcases os0 with _ | ⟨o1, os1⟩
    · simp only [build_owner_and_contested_polys]
      rw [ih]
      constructor
      · rintro ⟨c, os, hm, hos, hp⟩
        exact ⟨c, os, List.mem_cons_of_mem _ hm, hos, hp⟩
      · rintro ⟨c, os, hm, hos, hp⟩
        rcases List.mem_cons.mp hm with hE | hm2
        · injection hE with hxx h2
          rw [h2] at hos
          cases hos
        · exact ⟨c, os, hm2, hos, hp⟩
    · rcases os1 with _ | ⟨o2, os2⟩
      · simp only [build_owner_and_contested_polys]
        by_cases ho : o = o1
        · subst ho
          rw [updFn_self]
          simp only [List.mem_cons]
          rw [ih]
          constructor
          · rintro (rfl | ⟨c, os, hm, hos, hp⟩)
            · exact ⟨c0, [o], Or.inl rfl, rfl, rfl⟩
            · exact ⟨c, os, Or.inr hm, hos, hp⟩
          · rintro ⟨c, os, hm, hos, hp⟩
            rcases hm with hE | hm2
            · injection hE with h1 h2
              rw [h1] at hp
              exact Or.inl hp
            · exact Or.inr ⟨c, os, hm2, hos, hp⟩
        · rw [updFn_ne _ _ _ _ ho]
          rw [ih]
          constructor
          · rintro ⟨c, os, hm, hos, hp⟩
            exact ⟨c, os, List.mem_cons_of_mem _ hm, hos, hp⟩
          · rintro ⟨c, os, hm, hos, hp⟩
            rcases List.mem_cons.mp hm with hE | hm2
            · injection hE with hxx h2
              rw [h2] at hos
              injection hos with h3
              exact absurd h3.symm ho
            · exact ⟨c, os, hm2, hos, hp⟩
      · simp only [build_owner_and_contested_polys]
        rw [ih]
        constructor
        · rintro ⟨c, os, hm, hos, hp⟩
          exact ⟨c, os, List.mem_cons_of_mem _ hm, hos, hp⟩
        · rintro ⟨c, os, hm, hos, hp⟩
          rcases List.mem_cons.mp hm with hE | hm2
          · injection hE with hxx h2
            rw [h2] at hos
            cases hos
          · exact ⟨c, os, hm2, hos, hp⟩

theorem mem_build_contested (l : List ((ℤ × ℤ) × List OwnerKey)) (p : ChunkPoly) :
    p ∈ (build_owner_and_contested_polys l).2 ↔
      ∃ c os, (c, os) ∈ l ∧ 2 ≤ os.length ∧ p = chunk_bounds c.1 c.2 := by
  induction l with
  | nil => simp [build_owner_and_contested_polys]
  | cons entry rest ih =>
    obtain ⟨c0, os0⟩ := entry
    rcases os0 with _ | ⟨o1, os1⟩
    · simp only [build_owner_and_contested_polys]
      rw [ih]
      constructor
      · rintro ⟨c, os, hm, hos, hp⟩
        exact ⟨c, os, List.mem_cons_of_mem _ hm, hos, hp⟩
      · rintro ⟨c, os, hm, hlen, hp⟩
        rcases List.mem_cons.mp hm with hE | hm2
        · injection hE with hxx h2
          rw [h2] at hlen
          simp at hlen
        · exact ⟨c, os, hm2, hlen, hp⟩
    · rcases os1 with _ | ⟨o2, os2⟩
      · simp only [build_owner_and_contested_polys]
        rw [ih]
        constructor
        · rintro ⟨c, os, hm, hos, hp⟩
          exact ⟨c, os, List.mem_cons_of_mem _ hm, hos, hp⟩
        · rintro ⟨c, os, hm, hlen, hp⟩
          rcases List.mem_cons.mp hm with hE | hm2
          · injection hE with hxx h2
            rw [h2] at hlen
            simp at hlen
          · exact ⟨c, os, hm2, hlen, hp⟩
      · simp only [build_owner_and_contested_polys]
        simp only [List.mem_cons]
        rw [ih]
        constructor
        · rintro (rfl | ⟨c, os, hm, hlen, hp⟩)
          · exact ⟨c0, o1 :: o2 :: os2, Or.inl rfl,
              by simp only [List.length_cons]; omega, rfl⟩
          · exact ⟨c, os, Or.inr hm, hlen, hp⟩
        · rintro ⟨c, os, hm, hlen, hp⟩
          rcases hm with hE | hm2
          · injection hE with h1 hxx
            rw [h1] at hp
            exact Or.inl hp
          · exact Or.inr ⟨c, os, hm2, hlen, hp⟩

/-! ## Claim C8 — chunk classification -/

/-- C8 (confirmed): given any chunk-ownership map (owner sets modelled as
duplicate-free lists; the length is the set size), the polygon of a chunk lands
in exactly the polygon list of exactly one owner iff its owner set has size exactly 1 —
namely the list of that unique owner — in the contested list iff the size
exceeds 1, and in neither iff the owner set is empty. -/
theorem C8_chunk_classification (l : List ((ℤ × ℤ) × List OwnerKey))
    (hkeys : (l.map Prod.fst).Nodup) (c : ℤ × ℤ) (os : List OwnerKey)
    (hmem : (c, os) ∈ l) :
    (os.length = 1 ↔ ∃ o, os = [o] ∧
        chunk_bounds c.1 c.2 ∈ (build_owner_and_contested_polys l).1 o ∧
        ∀ o2, chunk_bounds c.1 c.2 ∈ (build_owner_and_contested_polys l).1 o2 → o2 = o) ∧
    (1 < os.length ↔ chunk_bounds c.1 c.2 ∈ (build_owner_and_contested_polys l).2) ∧
    (os = [] ↔ ((∀ o, chunk_bounds c.1 c.2 ∉ (build_owner_and_contested_polys l).1 o) ∧
        chunk_bounds c.1 c.2 ∉ (build_owner_and_contested_polys l).2)) := by
  have keyEq : ∀ (c2 : ℤ × ℤ), chunk_bounds c.1 c.2 = chunk_bounds c2.1 c2.2 → c = c2 := by
    intro c2 h
    obtain ⟨h1, h2⟩ := chunk_bounds_inj c.1 c.2 c2.1 c2.2 h
    exact Prod.ext h1 h2
  refine ⟨?_, ?_, ?_⟩
  · constructor
    · intro hlen
      obtain ⟨o, rfl⟩ : ∃ o, os = [o] := by
        rcases os with _ | ⟨o, _ | _⟩
        · cases hlen
        · exact ⟨o, rfl⟩
        · simp only [List.length_cons] at hlen
          omega
      refine ⟨o, rfl, (mem_build_owner l o _).mpr ⟨c, [o], hmem, rfl, rfl⟩, ?_⟩
      intro o2 h2
      obtain ⟨c2, os2, hm2, hos2, hp2⟩ := (mem_build_owner l o2 _).mp h2
      have hc2 : c = c2 := keyEq c2 hp2
      rw [← hc2] at hm2
      have : [o] = os2 := assoc_keys_unique l hkeys c [o] os2 hmem hm2
      rw [← this] at hos2
      injection hos2 with h3
      exact h3.symm
    · rintro ⟨o, rfl, -, -⟩
      rfl
  · constructor
    · intro hlen
      exact (mem_build_contested l _).mpr ⟨c, os, hmem, by omega, rfl⟩
    · intro h
      obtain ⟨c2, os2, hm2, hlen2, hp2⟩ := (mem_build_contested l _).mp h
      have hc2 : c = c2 := keyEq c2 hp2
      rw [← hc2] at hm2
      have : os = os2 := assoc_keys_unique l hkeys c os os2 hmem hm2
      rw [this]
      omega
  · constructor
    · rintro rfl
      constructor
      · intro o hcon
        obtain ⟨c2, os2, hm2, hos2, hp2⟩ := (mem_build_owner l o _).mp hcon
        have hc2 : c = c2 := keyEq c2 hp2
        rw [← hc2] at hm2
        have : ([] : List OwnerKey) = os2 := assoc_keys_unique l hkeys c [] os2 hmem hm2
        rw [← this] at hos2
        cases hos2
      · intro hcon
        obtain ⟨c2, os2, hm2, hlen2, hp2⟩ := (mem_build_contested l _).mp hcon
        have hc2 : c = c2 := keyEq c2 hp2
        rw [← hc2] at hm2
        have : ([] : List OwnerKey) = os2 := assoc_keys_unique l hkeys c [] os2 hmem hm2
        rw [← this] at hlen2
        simp at hlen2
    · rintro ⟨hno, hnc⟩
      rcases os with _ | ⟨o, os2⟩
      · rfl
      · exfalso
        rcases os2 with _ | ⟨o2, os3⟩
        · exact hno o ((mem_build_owner l o _).mpr ⟨c, [o], hmem, rfl, rfl⟩)
        · exact hnc ((mem_build_contested l _).mpr
            ⟨c, o :: o2 :: os3, hmem, by simp only [List.length_cons]; omega, rfl⟩)

/-- Witness for C8: a three-chunk map with one solely-owned chunk, one
contested chunk and one unowned chunk; the polygon of the contested chunk is in
the contested list. -/
theorem C8_witness :
    (([((0, 0), [((1 : ℤ), "a")]), ((1, 0), [(1, "a"), (2, "b")]),
        ((2, 0), [])] : List ((ℤ × ℤ) × List OwnerKey)).map Prod.fst).Nodup ∧
    (((1, 0), [((1 : ℤ), "a"), (2, "b")]) ∈
      ([((0, 0), [((1 : ℤ), "a")]), ((1, 0), [(1, "a"), (2, "b")]),
        ((2, 0), [])] : List ((ℤ × ℤ) × List OwnerKey))) ∧
    chunk_bounds 1 0 ∈
      (build_owner_and_contested_polys
        [((0, 0), [((1 : ℤ), "a")]), ((1, 0), [(1, "a"), (2, "b")]), ((2, 0), [])]).2 := by
  have hkeys : (([((0, 0), [((1 : ℤ), "a")]), ((1, 0), [(1, "a"), (2, "b")]),
      ((2, 0), [])] : List ((ℤ × ℤ) × List OwnerKey)).map Prod.fst).Nodup := by decide
  have hmem : (((1, 0), [((1 : ℤ), "a"), (2, "b")]) ∈
      ([((0, 0), [((1 : ℤ), "a")]), ((1, 0), [(1, "a"), (2, "b")]),
        ((2, 0), [])] : List ((ℤ × ℤ) × List OwnerKey))) := by decide
  exact ⟨hkeys, hmem,
    ((C8_chunk_classification _ hkeys (1, 0) [(1, "a"), (2, "b")] hmem).2.1).mp
      (by norm_num)⟩
